import Mathlib

/-!
# The King Algorithm simulator (`main.go`): embedding and verified properties

The Go program simulates `N` participants that run a rotating-king Byzantine
agreement over TCP.  This file embeds the protocol-relevant functions of
`main.go` as Lean functions and proves properties of them.

Conventions of the embedding:

* Go `int` values are embedded as `Int`; integer division and remainder are the
  truncating `Int.tdiv` and `Int.tmod`, as in Go.  The one addition whose operand
  is not bounded by the number of participants, `round+1` in `chooseKing`, wraps
  around at 64 bits (`wrapInt64`); participant ids and counts stay far below the
  machine word bound.
* A method with a pointer receiver becomes a function that takes the node and
  returns the node it leaves behind together with its results.
* `map[int][]Plan` is a function from round numbers to slices; a missing key
  reads as the empty slice, exactly as indexing a Go map does.
* The mutex, the listener and the TCP connections are not part of the state;
  `handleConnection` is atomic under the node's lock, so a sequence of handled
  connections is a left fold of `handleConnection`.
* Nondeterminism is made explicit: the random draws of `getRandomPlan` and the
  iteration order of the tally map in `calculateMajorityPlan` are arguments.
-/

set_option linter.dupNamespace false
set_option autoImplicit false

namespace KingAlgorithm

/-! ## Data model -/

/-- A received proposal: `type Plan struct { From int; Plan string }`. -/
structure Plan where
  From : Int
  Plan : String
deriving DecidableEq, Repr

/-- An entry of the shared topology: `type NodeAddressPort struct`. -/
structure NodeAddressPort where
  Id : Int
  Address : String
  Port : String
deriving DecidableEq, Repr

/-- The wire envelope: `type Message struct`.  The Go field `Type` is called
`MsgType` here because `Type` is reserved in Lean. -/
structure Message where
  MsgType : String
  From : Int
  Round : Int
  Plan : String
deriving DecidableEq, Repr

/-- The constant `PlanMessage MessageType = "plan"`. -/
def PlanMessage : String := "plan"

/-- The constant `ACKMessage MessageType = "ack"`. -/
def ACKMessage : String := "ack"

/-- The participant state: `type Node struct`, without the mutex and the listener. -/
structure Node where
  Id : Int
  Address : String
  Port : String
  KingId : Int
  isTraitor : Bool
  plan : Plan
  round : Int
  plans : Int → List Plan
  isRunning : Bool
  nodeAddressesPorts : List NodeAddressPort
  traitors : List Int
  ACKs : List Int

/-! ## Helpers of `main.go` -/

/-- The Go function `contains(slice []int, val int) bool`. -/
def contains : List Int → Int → Bool
  | [], _ => false
  | v :: rest, val => if v = val then true else contains rest val

/-- The Go function `containsInt(slice []int, val int) bool`. -/
def containsInt : List Int → Int → Bool
  | [], _ => false
  | v :: rest, val => if v = val then true else containsInt rest val

/-- The Go function `getRandomPlan()`; `draw` is the value of `rand.Intn(len(plans))`. -/
def getRandomPlan (draw : Fin 2) : String :=
  (["Attack", "Retreat"] : List String).get draw

/-- The expression `int(math.Round(float64(x) / 4))`: the quotient `x / 4` rounded
to the nearest integer, halves away from zero.  (Exact for `|x| < 2^53`, where
the conversion to `float64` and the division by four lose nothing.) -/
def roundQuarter (x : Int) : Int :=
  if 0 ≤ x then (x + 2) / 4 else -((2 - x) / 4)

/-- The Go loop `for i := lo; i < hi; i++`: the values `i` takes, in order. -/
def intRange (lo hi : Int) : List Int :=
  (List.range (hi - lo).toNat).map (fun (k : Nat) => lo + (k : Int))

/-! ## Transport: `handleConnection` -/

/-- The Go method `handleConnection`.  `decoded` is the outcome of
`decoder.Decode(&msg)`: `none` is a decode error, after which the method returns
without touching the node. -/
def handleConnection (node : Node) (decoded : Option Message) : Node :=
  match decoded with
  | none => node
  | some msg =>
    if msg.MsgType = ACKMessage then
      if !containsInt node.ACKs msg.From then
        { node with ACKs := node.ACKs ++ [msg.From] }
      else node
    else if msg.MsgType = PlanMessage then
      { node with
        plans := fun r =>
          if r = msg.Round then
            node.plans msg.Round ++ [{ From := msg.From, Plan := msg.Plan }]
          else node.plans r }
    else node

/-- A node after its handlers have processed the decoded messages `msgs` one after
the other (each handler runs under the node's lock). -/
def handleAll (node : Node) (msgs : List Message) : Node :=
  msgs.foldl (fun nd m => handleConnection nd (some m)) node

/-- The release test of the polling loop in `waitForAllNodes`:
`receivedAcks >= expectedAcks` with `expectedAcks := totalNodes - 1`. -/
def allAcksReceived (node : Node) (totalNodes : Int) : Bool :=
  decide ((node.ACKs.length : Int) ≥ totalNodes - 1)

/-- The exit test of the polling loop in `waitForPlans`:
`plansCount == totalNodes-1` with `plansCount := len(node.plans[round])`. -/
def allPlansReceived (node : Node) (round totalNodes : Int) : Bool :=
  decide (((node.plans round).length : Int) = totalNodes - 1)

/-! ## Decision rule: `calculateMajorityPlan` and the decide step of `runNode` -/

/-- The statement `plans[key]++` on the tally map `plans := make(map[string]int)`,
the map being kept as an association list with distinct keys. -/
def incrVote : List (String × Int) → String → List (String × Int)
  | [], key => [(key, 0 + 1)]
  | (k, c) :: rest, key =>
    if k = key then (k, c + 1) :: rest else (k, c) :: incrVote rest key

/-- The counting loop `for _, msg := range node.plans[round] { plans[msg.Plan]++ }`. -/
def countVotes (table : List Plan) : List (String × Int) :=
  table.foldl (fun m msg => incrVote m msg.Plan) []

/-- Reading `plans[key]` from the tally map (zero for a missing key). -/
def votesOf : List (String × Int) → String → Int
  | [], _ => 0
  | (k, c) :: rest, key => if k = key then c else votesOf rest key

/-- The keys of the tally map. -/
def tallyKeys (m : List (String × Int)) : List String :=
  m.map Prod.fst

/-- The loop `for plan, votes := range plans` that looks for the most voted plan,
run over the keys in the order `order`; the pair is `(maxVotes, majorityPlan)`. -/
def maxVotesLoop (m : List (String × Int)) (order : List String) : Int × String :=
  order.foldl
    (fun acc plan => if votesOf m plan > acc.1 then (votesOf m plan, plan) else acc)
    (0, "")

/-- The value `(len(node.nodeAddressesPorts)/2) + numTraitors` that the most voted
plan has to exceed, with `numTraitors := int(math.Round(float64(len-1) / 4))`. -/
def majorityThreshold (node : Node) : Int :=
  Int.tdiv (node.nodeAddressesPorts.length : Int) 2
    + roundQuarter ((node.nodeAddressesPorts.length : Int) - 1)

/-- The Go method `calculateMajorityPlan(round)`.  `order` is the order in which
the `range` loop visits the keys of the tally map (Go leaves it unspecified).
Returns the node it leaves behind and the two results. -/
def calculateMajorityPlan (node : Node) (round : Int) (order : List String) :
    Node × Bool × String :=
  let plans := countVotes (node.plans round)
  let best := maxVotesLoop plans order
  if best.1 > majorityThreshold node then
    ({ node with plan := { node.plan with Plan := best.2 } }, true, best.2)
  else
    (node, false, "")

/-- The loop `for _, plan := range node.plans[round]` of the king fallback:
every entry sent by the king overwrites the node's plan. -/
def adoptKingPlan (node : Node) (table : List Plan) : Node :=
  table.foldl
    (fun nd p => if p.From = nd.KingId then { nd with plan := { nd.plan with Plan := p.Plan } } else nd)
    node

/-- The decide step of `runNode` (the call of `calculateMajorityPlan` and the
`if majority { ... } else { ... }` that follows it). -/
def decideStep (node : Node) (round : Int) (order : List String) : Node :=
  let res := calculateMajorityPlan node round order
  if res.2.1 then
    { res.1 with plan := { res.1.plan with Plan := res.2.2 } }
  else
    adoptKingPlan res.1 (res.1.plans round)

/-! ## King selection: `chooseKing` -/

/-- The value a 64-bit Go `int` holds after an arithmetic result `x`: `x` reduced
modulo `2^64` into `[-2^63, 2^63)` (two's complement wrap-around). -/
def wrapInt64 (x : Int) : Int :=
  (x + 9223372036854775808) % 18446744073709551616 - 9223372036854775808

/-- The Go method `chooseKing(totalNodes, round)`.  The recursion of the source is
not bounded, so the embedding takes `fuel`, the number of calls it may make; the
result is `none` when the fuel runs out and when `round % totalNodes` divides by
zero.  Otherwise it is the king id and the node the call leaves behind.  The
argument `round+1` of the recursive call is a 64-bit `int` and wraps around. -/
def chooseKing : Nat → Node → Int → Int → Option (Int × Node)
  | 0, _, _, _ => none
  | fuel + 1, node, totalNodes, round =>
    if totalNodes = 0 then none
    else
      let kingId := Int.tmod round totalNodes
      if contains node.traitors node.KingId && contains node.traitors kingId then
        chooseKing fuel node totalNodes (wrapInt64 (round + 1))
      else
        some (kingId, node)

/-! ## Topology: `generateNodes` -/

/-- The call `fmt.Sprintf("800%d", i+1)`. -/
def portOf (i : Int) : String :=
  "800" ++ toString (i + 1)

/-- The Go function `generateNodes(totalNodes, addresses)`.  `draws i` is the random
draw behind the initial plan of node `i`.  The result is `none` when
`addresses[i%len(addresses)]` panics, which is when a node is built from an empty
address list. -/
def generateNodes (totalNodes : Int) (addresses : List String) (draws : Int → Fin 2) :
    Option (List Node × Int) :=
  let maxTraitors := roundQuarter (totalNodes - 1)
  let rounds := maxTraitors + 1
  let traitors := intRange (totalNodes - maxTraitors) totalNodes
  if 0 < totalNodes ∧ addresses = [] then none
  else
    let addressOf := fun (i : Int) =>
      addresses.getD (Int.tmod i (addresses.length : Int)).toNat ""
    let nodeAddressesPorts := (intRange 0 totalNodes).map
      (fun i => ({ Id := i, Address := addressOf i, Port := portOf i } : NodeAddressPort))
    let nodes := (intRange 0 totalNodes).map
      (fun i => ({
        Id := i
        Address := addressOf i
        Port := portOf i
        KingId := 0
        isTraitor := contains traitors i
        plan := { From := 0, Plan := getRandomPlan (draws i) }
        round := 1
        plans := fun _ => []
        isRunning := true
        nodeAddressesPorts := nodeAddressesPorts
        traitors := traitors
        ACKs := [] } : Node))
    some (nodes, rounds)

/-! ## The round loop: `runNode` and `broadcastPlan` -/

/-- The Go method `broadcastPlan(round)`: the messages handed to `sendMessage`, each
with its target, in sending order.  `draws k` is the random draw made for the
`k`-th entry of the topology when the sender is a traitor. -/
def broadcastPlan (node : Node) (round : Int) (draws : Nat → Fin 2) :
    List (NodeAddressPort × Message) :=
  node.nodeAddressesPorts.enum.filterMap (fun kt =>
    if kt.2.Id ≠ node.Id then
      some (kt.2,
        { MsgType := PlanMessage
          From := node.Id
          Round := round
          Plan := if node.isTraitor then getRandomPlan (draws kt.1) else node.plan.Plan })
    else none)

/-- The first half of the loop body of `runNode`: `node.round = round`, the call
`node.KingId = node.chooseKing(totalNodes, round)` and `node.broadcastPlan(round)`.
The result is the node and the messages it sent; `none` when `chooseKing` gives
no result. -/
def roundSend (fuel : Nat) (node : Node) (totalNodes round : Int) (draws : Nat → Fin 2) :
    Option (Node × List (NodeAddressPort × Message)) :=
  match chooseKing fuel { node with round := round } totalNodes round with
  | none => none
  | some (kingId, nd) =>
    let nd1 := { nd with KingId := kingId }
    some (nd1, broadcastPlan nd1 round draws)

/-- The second half of the loop body of `runNode`: `node.waitForPlans(round,
totalNodes)` followed by the decide step.  The result is `none` when the table of
the round does not hold `totalNodes-1` entries, in which case the polling loop of
`waitForPlans` does not exit. -/
def roundDecide (node : Node) (totalNodes round : Int) (order : List String) : Option Node :=
  if allPlansReceived node round totalNodes then some (decideStep node round order)
  else none

/-- One loop iteration of `runNode` for a single node; `inbox` holds the decoded
messages that the node's connection handlers process while it waits in this
round.  The second component is the king the node chose (the value printed by
`Node %d chose king %d for round %d`). -/
def runRound (fuel : Nat) (totalNodes : Int) (draws : Int → Nat → Fin 2)
    (inbox : Int → List Message) (order : Int → List String)
    (acc : Option (Node × List Int)) (round : Int) : Option (Node × List Int) :=
  match acc with
  | none => none
  | some (node, kings) =>
    match roundSend fuel node totalNodes round (draws round) with
    | none => none
    | some (nd1, _) =>
      match roundDecide (handleAll nd1 (inbox round)) totalNodes round (order round) with
      | none => none
      | some nd2 => some (nd2, kings ++ [nd1.KingId])

/-- The Go method `runNode(rounds, totalNodes)` for a single node: the loop
`for round := 1; round <= rounds; round++` and the final `node.isRunning = false`.
Returns the final node and the kings chosen round by round. -/
def runNode (fuel : Nat) (node : Node) (rounds totalNodes : Int) (draws : Int → Nat → Fin 2)
    (inbox : Int → List Message) (order : Int → List String) : Option (Node × List Int) :=
  match (intRange 1 (rounds + 1)).foldl (runRound fuel totalNodes draws inbox order)
      (some (node, [])) with
  | none => none
  | some (nd, kings) => some ({ nd with isRunning := false }, kings)

/-! ## A synchronous, lossless run of all participants -/

/-- The messages of `sent` whose target is the endpoint of `node`, in sending order. -/
def deliveredTo (node : Node) (sent : List (NodeAddressPort × Message)) : List Message :=
  sent.filterMap (fun tm =>
    if tm.1.Address = node.Address ∧ tm.1.Port = node.Port then some tm.2 else none)

/-- Collects a list of optional values; `none` as soon as one is missing. -/
def allSome {α : Type} : List (Option α) → Option (List α)
  | [] => some []
  | none :: _ => none
  | some a :: rest =>
    match allSome rest with
    | none => none
    | some as => some (a :: as)

/-- One round of all participants in lockstep: every node runs `roundSend`, every
message sent is handled by the node it is addressed to, then every node runs
`roundDecide`, its tally map ranged over in the order the keys were inserted.
`draws r i k` is the draw that the sender with id `i` makes in round `r` for the
`k`-th topology entry. -/
def syncRound (fuel : Nat) (totalNodes : Int) (draws : Int → Int → Nat → Fin 2)
    (acc : Option (List Node)) (round : Int) : Option (List Node) :=
  match acc with
  | none => none
  | some nodes =>
    match allSome (nodes.map (fun nd => roundSend fuel nd totalNodes round (draws round nd.Id))) with
    | none => none
    | some sends =>
      let sent := (sends.map Prod.snd).flatten
      allSome (sends.map (fun s =>
        let nd := handleAll s.1 (deliveredTo s.1 sent)
        roundDecide nd totalNodes round (tallyKeys (countVotes (nd.plans round)))))

/-- The lockstep run of all participants for rounds `1..rounds`. -/
def syncRun (fuel : Nat) (nodes : List Node) (rounds totalNodes : Int)
    (draws : Int → Int → Nat → Fin 2) : Option (List Node) :=
  match (intRange 1 (rounds + 1)).foldl (syncRound fuel totalNodes draws) (some nodes) with
  | none => none
  | some nds => some (nds.map (fun nd => { nd with isRunning := false }))

/-- The final plans of the participants that are not traitors, by participant id. -/
def honestPlans (nodes : List Node) : List (Int × String) :=
  (nodes.filter (fun nd => !nd.isTraitor)).map (fun nd => (nd.Id, nd.plan.Plan))

/-- The number of entries of a round table that carry the value `v`. -/
def occurrences (table : List Plan) (v : String) : Nat :=
  table.countP (fun p => decide (p.Plan = v))

/-- The senders of the Ack-kind messages of a sequence, in arrival order. -/
def ackSenders (msgs : List Message) : List Int :=
  (msgs.filter (fun m => decide (m.MsgType = ACKMessage))).map (fun m => m.From)

/-- The senders of the entries of a round table, in arrival order. -/
def tableSenders (table : List Plan) : List Int :=
  table.map (fun p => p.From)

/-- A node that has received nothing yet, in a topology of three participants. -/
def sampleNode : Node :=
  { Id := 0
    Address := "127.0.0.1"
    Port := "8001"
    KingId := 1
    isTraitor := false
    plan := { From := 0, Plan := "Attack" }
    round := 1
    plans := fun _ => []
    isRunning := true
    nodeAddressesPorts :=
      [{ Id := 0, Address := "127.0.0.1", Port := "8001" },
       { Id := 1, Address := "127.0.0.1", Port := "8002" },
       { Id := 2, Address := "127.0.0.1", Port := "8003" }]
    traitors := [2]
    ACKs := [] }

/-- An Ack sequence with a repeated sender and a proposal in between. -/
def sampleAcks : List Message :=
  [{ MsgType := ACKMessage, From := 1, Round := 0, Plan := "" },
   { MsgType := ACKMessage, From := 1, Round := 0, Plan := "" },
   { MsgType := PlanMessage, From := 2, Round := 1, Plan := "Attack" },
   { MsgType := ACKMessage, From := 2, Round := 0, Plan := "" },
   { MsgType := ACKMessage, From := 1, Round := 0, Plan := "" }]

/-- A proposal of participant 1 for round 1. -/
def sampleProposal : Message :=
  { MsgType := PlanMessage, From := 1, Round := 1, Plan := "Retreat" }

/-- The last entry of a round table whose sender is the node's king, if any. -/
def kingEntry (node : Node) (table : List Plan) : Option Plan :=
  (table.filter (fun p => decide (p.From = node.KingId))).getLast?

/-- A node of a five-participant topology whose table of round 1 holds the same
value four times. -/
def sampleMajorityNode : Node :=
  { sampleNode with
    plan := { From := 0, Plan := "Retreat" }
    nodeAddressesPorts :=
      [{ Id := 0, Address := "127.0.0.1", Port := "8001" },
       { Id := 1, Address := "127.0.0.1", Port := "8002" },
       { Id := 2, Address := "127.0.0.1", Port := "8003" },
       { Id := 3, Address := "127.0.0.1", Port := "8004" },
       { Id := 4, Address := "127.0.0.1", Port := "8005" }]
    traitors := [4]
    plans := fun r =>
      if r = 1 then
        [{ From := 1, Plan := "Attack" }, { From := 2, Plan := "Attack" },
         { From := 3, Plan := "Attack" }, { From := 4, Plan := "Attack" }]
      else [] }

/-- A node of a three-participant topology with king 1 whose table of round 1
holds a tie: one entry from the king and one from participant 2. -/
def sampleTiedNode : Node :=
  { sampleNode with
    plans := fun r =>
      if r = 1 then [{ From := 1, Plan := "Retreat" }, { From := 2, Plan := "Attack" }]
      else [] }

/-- The value of a decimal digit, `none` for any other character. -/
def digitValue (c : Char) : Option Int :=
  if '0' ≤ c ∧ c ≤ '9' then some ((c.toNat : Int) - 48) else none

/-- A string of decimal digits read as a number, `none` when a character is not a digit. -/
def decimalValue (s : String) : Option Int :=
  s.data.foldl
    (fun acc c =>
      match acc, digitValue c with
      | some a, some d => some (10 * a + d)
      | _, _ => none)
    (some 0)

/-- The participant ids and ports, read as decimal numbers, that `generateNodes`
assigns in a topology of `totalNodes` participants on one address. -/
def portNumbers (totalNodes : Int) : Option (List (Int × String × Option Int)) :=
  (generateNodes totalNodes ["127.0.0.1"] (fun _ => 0)).map
    (fun g => g.1.map (fun nd => (nd.Id, nd.Port, decimalValue nd.Port)))

/-- A lossless inbox for rounds `1..rounds`: while the node waits in round `r` its
handlers process exactly `totalNodes - 1` Proposal-kind messages, all for round `r`. -/
def losslessInbox (inbox : Int → List Message) (rounds totalNodes : Int) : Prop :=
  ∀ r : Int, 1 ≤ r → r ≤ rounds →
    ((inbox r).length : Int) = totalNodes - 1 ∧
    ∀ m ∈ inbox r, m.MsgType = PlanMessage ∧ m.Round = r

/-- The inbox in which participants 1, 2 and 3 send `Attack` in every round. -/
def sampleInbox : Int → List Message := fun r =>
  [{ MsgType := PlanMessage, From := 1, Round := r, Plan := "Attack" },
   { MsgType := PlanMessage, From := 2, Round := r, Plan := "Attack" },
   { MsgType := PlanMessage, From := 3, Round := r, Plan := "Attack" }]

/-- Initial draws of a run of nine participants: participant 1 starts with
`Retreat`, every other participant with `Attack`. -/
def nineInitialDraws : Int → Fin 2 := fun i => if i = 1 then 1 else 0

/-- Draws of the traitors 7 and 8 in a run of nine participants, by round and by
recipient: in round 1 they send `Attack` to participant 2 and `Retreat` to the
others; in rounds 2 and 3 they send `Retreat` to participant 3 and `Attack` to
the others. -/
def nineTraitorDraws : Int → Int → Nat → Fin 2 := fun round _ k =>
  if round = 1 then (if k = 2 then 0 else 1) else (if k = 3 then 1 else 0)

/-- The senders recorded in the tables of rounds 1, 2 and 3 of every node, by node. -/
def recordedSenders (nodes : List Node) : List (Int × List (List Int)) :=
  nodes.map (fun nd => (nd.Id, [1, 2, 3].map (fun r => tableSenders (nd.plans r))))

theorem containsInt_iff (l : List Int) (x : Int) : containsInt l x = true ↔ x ∈ l := by
  induction l with
  | nil => simp [containsInt]
  | cons a t ih =>
    by_cases h : a = x
    · simp [containsInt, h]
    · have h2 : ¬ x = a := fun e => h e.symm
      simp [containsInt, h, h2, ih]

theorem contains_iff (l : List Int) (x : Int) : contains l x = true ↔ x ∈ l := by
  induction l with
  | nil => simp [contains]
  | cons a t ih =>
    by_cases h : a = x
    · simp [contains, h]
    · have h2 : ¬ x = a := fun e => h e.symm
      simp [contains, h, h2, ih]

/-! ## The readiness barrier: `ACKs` holds distinct senders -/

theorem handleConnection_acks (node : Node) (m : Message) :
    (handleConnection node (some m)).ACKs =
      if m.MsgType = ACKMessage ∧ m.From ∉ node.ACKs then node.ACKs ++ [m.From]
      else node.ACKs := by
  unfold handleConnection
  by_cases hA : m.MsgType = ACKMessage
  · by_cases hc : m.From ∈ node.ACKs
    · have := (containsInt_iff node.ACKs m.From).2 hc
      simp [hA, hc, this]
    · have : containsInt node.ACKs m.From = false := by
        cases h : containsInt node.ACKs m.From with
        | false => rfl
        | true => exact absurd ((containsInt_iff _ _).1 h) hc
      simp [hA, hc, this]
  · have hne : ¬ PlanMessage = ACKMessage := by decide
    by_cases hP : m.MsgType = PlanMessage <;> simp [hA, hP, hne]

theorem handleAll_cons (node : Node) (m : Message) (msgs : List Message) :
    handleAll node (m :: msgs) = handleAll (handleConnection node (some m)) msgs := rfl

theorem handleAll_acks (msgs : List Message) :
    ∀ node : Node, node.ACKs.Nodup →
      (handleAll node msgs).ACKs.Nodup ∧
      ∀ x, x ∈ (handleAll node msgs).ACKs ↔ x ∈ node.ACKs ∨ x ∈ ackSenders msgs := by
  induction msgs with
  | nil => intro node h; simp [handleAll, ackSenders, h]
  | cons m rest ih =>
    intro node h
    rw [handleAll_cons]
    have hstep := handleConnection_acks node m
    have hnd : (handleConnection node (some m)).ACKs.Nodup := by
      rw [hstep]
      split
      · rename_i hc
        exact List.Nodup.append h (List.nodup_singleton _) (by simpa using hc.2)
      · exact h
    obtain ⟨h1, h2⟩ := ih _ hnd
    refine ⟨h1, fun x => ?_⟩
    rw [h2 x, hstep]
    by_cases hA : m.MsgType = ACKMessage
    · by_cases hc : m.From ∈ node.ACKs
      · simp only [hA, hc, not_true_eq_false, and_false, if_false, ackSenders,
          List.filter_cons, decide_True, if_true, List.map_cons, List.mem_cons]
        constructor
        · rintro (h | h)
          · exact Or.inl h
          · exact Or.inr (Or.inr h)
        · rintro (h | h | h)
          · exact Or.inl h
          · exact Or.inl (h ▸ hc)
          · exact Or.inr h
      · simp only [hA, hc, not_false_eq_true, and_self, if_true, ackSenders,
          List.filter_cons, decide_True, List.map_cons, List.mem_cons, List.mem_append,
          List.mem_singleton]
        tauto
    · simp [hA, ackSenders, List.filter_cons]

theorem dedup_length_eq_of_mem_iff {l₁ l₂ : List Int} (h₁ : l₁.Nodup)
    (h : ∀ x, x ∈ l₁ ↔ x ∈ l₂) : l₁.length = l₂.dedup.length := by
  have hp : l₁.Perm l₂.dedup :=
    (List.perm_ext_iff_of_nodup h₁ (List.nodup_dedup l₂)).2
      (fun a => by rw [List.mem_dedup]; exact h a)
  exact hp.length_eq

theorem dedup_length_append_mem (l : List Int) (a : Int) (h : a ∈ l) :
    (l ++ [a]).dedup.length = l.dedup.length := by
  have hp : (l ++ [a]).dedup.Perm l.dedup :=
    (List.perm_ext_iff_of_nodup (List.nodup_dedup _) (List.nodup_dedup _)).2
      (fun x => by
        simp only [List.mem_dedup, List.mem_append, List.mem_singleton]
        constructor
        · rintro (hx | hx)
          · exact hx
          · exact hx ▸ h
        · exact fun hx => Or.inl hx)
  exact hp.length_eq

theorem dedup_length_le (l : List Int) : l.dedup.length ≤ l.length :=
  (List.dedup_sublist l).length_le

/-- C4 (barrier completion): starting from an empty `ACKs` list, after the handlers
have processed any sequence of decoded messages, `ACKs` holds no sender twice and
its length is the number of distinct senders of the Ack-kind messages; an Ack from
a sender already recorded leaves `ACKs` unchanged; hence the release test of
`waitForAllNodes` holds only when at least `totalNodes - 1` distinct senders have
sent an Ack. -/
theorem ack_barrier_counts_distinct_senders (node : Node) (msgs : List Message)
    (h0 : node.ACKs = []) :
    (handleAll node msgs).ACKs.Nodup ∧
    (handleAll node msgs).ACKs.length = (ackSenders msgs).dedup.length ∧
    (∀ (nd : Node) (m : Message), m.MsgType = ACKMessage → m.From ∈ nd.ACKs →
        (handleConnection nd (some m)).ACKs = nd.ACKs) ∧
    (∀ totalNodes : Int, allAcksReceived (handleAll node msgs) totalNodes = true →
        totalNodes - 1 ≤ ((ackSenders msgs).dedup.length : Int)) := by
  have hnil : node.ACKs.Nodup := by rw [h0]; exact List.nodup_nil
  obtain ⟨hnd, hmem⟩ := handleAll_acks msgs node hnil
  have hlen : (handleAll node msgs).ACKs.length = (ackSenders msgs).dedup.length :=
    dedup_length_eq_of_mem_iff hnd (fun x => by rw [hmem x, h0]; simp)
  refine ⟨hnd, hlen, ?_, ?_⟩
  · intro nd m hA hin
    rw [handleConnection_acks]
    simp [hA, hin]
  · intro totalNodes hrel
    unfold allAcksReceived at hrel
    rw [hlen] at hrel
    exact of_decide_eq_true hrel

theorem ack_barrier_counts_distinct_senders_witness :
    sampleNode.ACKs = [] ∧ (handleAll sampleNode sampleAcks).ACKs = [1, 2] ∧
    (handleAll sampleNode sampleAcks).ACKs.length = (ackSenders sampleAcks).dedup.length :=
  ⟨rfl, by decide, (ack_barrier_counts_distinct_senders sampleNode sampleAcks rfl).2.1⟩

/-! ## Collecting proposals: `plans[round]` grows by one entry per message -/

/-- C5 (round-collect without deduplication): a Proposal-kind message with sender
`s`, round `r` and value `v` appends the entry `(s, v)` at the end of `plans[r]`,
whatever the table already holds, so the table grows by exactly one entry and
its earlier entries stay in place; the tables of the other rounds, `ACKs` and the
node's own plan are unchanged.  Hence when `plans[r]` holds `totalNodes - 2` entries
and already one from `s`, the message makes the exit test of `waitForPlans` true
although fewer than `totalNodes - 1` distinct senders are in the table. -/
theorem plan_message_appends_without_dedup (node : Node) (msg : Message)
    (h : msg.MsgType = PlanMessage) :
    (handleConnection node (some msg)).plans msg.Round =
        node.plans msg.Round ++ [{ From := msg.From, Plan := msg.Plan }] ∧
    ((handleConnection node (some msg)).plans msg.Round).length =
        (node.plans msg.Round).length + 1 ∧
    (∀ r, r ≠ msg.Round → (handleConnection node (some msg)).plans r = node.plans r) ∧
    (handleConnection node (some msg)).ACKs = node.ACKs ∧
    (handleConnection node (some msg)).plan = node.plan ∧
    (∀ totalNodes : Int, ((node.plans msg.Round).length : Int) = totalNodes - 2 →
        msg.From ∈ tableSenders (node.plans msg.Round) →
        allPlansReceived (handleConnection node (some msg)) msg.Round totalNodes = true ∧
        ((tableSenders ((handleConnection node (some msg)).plans msg.Round)).dedup.length : Int)
          < totalNodes - 1) := by
  have hne : ¬ PlanMessage = ACKMessage := by decide
  have hplans : (handleConnection node (some msg)).plans = fun r =>
      if r = msg.Round then node.plans msg.Round ++ [{ From := msg.From, Plan := msg.Plan }]
      else node.plans r := by
    simp [handleConnection, h, hne]
  have hacks : (handleConnection node (some msg)).ACKs = node.ACKs := by
    simp [handleConnection, h, hne]
  have hplan : (handleConnection node (some msg)).plan = node.plan := by
    simp [handleConnection, h, hne]
  have hround : (handleConnection node (some msg)).plans msg.Round =
      node.plans msg.Round ++ [{ From := msg.From, Plan := msg.Plan }] := by
    rw [hplans]; simp
  refine ⟨hround, ?_, ?_, hacks, hplan, ?_⟩
  · rw [hround]; simp
  · intro r hr
    rw [hplans]; simp [hr]
  · intro totalNodes hlen hdup
    constructor
    · unfold allPlansReceived
      rw [hround]
      apply decide_eq_true
      simp only [List.length_append, List.length_singleton, Nat.cast_add, Nat.cast_one]
      omega
    · rw [hround]
      have e : tableSenders (node.plans msg.Round ++ [{ From := msg.From, Plan := msg.Plan }])
          = tableSenders (node.plans msg.Round) ++ [msg.From] := by
        simp [tableSenders]
      rw [e, dedup_length_append_mem _ _ hdup]
      have h1 := dedup_length_le (tableSenders (node.plans msg.Round))
      have h2 : (tableSenders (node.plans msg.Round)).length = (node.plans msg.Round).length := by
        simp [tableSenders]
      omega

theorem plan_message_appends_without_dedup_witness :
    sampleProposal.MsgType = PlanMessage ∧
    (handleAll sampleNode [sampleProposal, sampleProposal]).plans 1 =
      [{ From := 1, Plan := "Retreat" }, { From := 1, Plan := "Retreat" }] ∧
    allPlansReceived (handleAll sampleNode [sampleProposal, sampleProposal]) 1 3 = true ∧
    ((tableSenders ((handleAll sampleNode [sampleProposal, sampleProposal]).plans 1)).dedup.length
      : Int) < 3 - 1 :=
  ⟨rfl, by decide,
    (plan_message_appends_without_dedup (handleAll sampleNode [sampleProposal]) sampleProposal
      rfl).2.2.2.2.2 3 (by decide) (by decide)⟩

/-! ## The tally of `calculateMajorityPlan` -/

theorem votesOf_incrVote (m : List (String × Int)) (k w : String) :
    votesOf (incrVote m k) w = votesOf m w + (if k = w then 1 else 0) := by
  induction m with
  | nil => simp [incrVote, votesOf]
  | cons a rest ih =>
    obtain ⟨k', c⟩ := a
    by_cases h1 : k' = k
    · subst h1
      by_cases h2 : k' = w <;> simp [incrVote, votesOf, h2]
    · by_cases h2 : k' = w
      · have h3 : ¬ k = w := fun e => h1 (h2.trans e.symm)
        have h4 : ¬ w = k := fun e => h3 e.symm
        simp [incrVote, votesOf, h2, h3, h4]
      · simp [incrVote, votesOf, h1, h2, ih]

theorem votesOf_foldl (table : List Plan) :
    ∀ (m : List (String × Int)) (w : String),
      votesOf (table.foldl (fun m msg => incrVote m msg.Plan) m) w
        = votesOf m w + (occurrences table w : Int) := by
  induction table with
  | nil => intro m w; simp [occurrences]
  | cons p rest ih =>
    intro m w
    rw [List.foldl_cons, ih, votesOf_incrVote]
    by_cases h : p.Plan = w
    · simp [occurrences, List.countP_cons, h]; ring
    · simp [occurrences, List.countP_cons, h]

theorem votesOf_countVotes (table : List Plan) (w : String) :
    votesOf (countVotes table) w = (occurrences table w : Int) := by
  unfold countVotes
  rw [votesOf_foldl]
  simp [votesOf]

theorem mem_tallyKeys_incrVote (m : List (String × Int)) (k x : String) :
    x ∈ tallyKeys (incrVote m k) ↔ x ∈ tallyKeys m ∨ x = k := by
  induction m with
  | nil => simp [incrVote, tallyKeys]
  | cons a rest ih =>
    obtain ⟨k', c⟩ := a
    by_cases h1 : k' = k
    · subst h1
      simp [incrVote, tallyKeys]
      tauto
    · have ih2 : x ∈ List.map Prod.fst (incrVote rest k) ↔ x ∈ List.map Prod.fst rest ∨ x = k := ih
      simp only [incrVote, h1, if_false, tallyKeys, List.map_cons, List.mem_cons, ih2]
      tauto

theorem mem_tallyKeys_foldl (table : List Plan) :
    ∀ (m : List (String × Int)) (x : String),
      x ∈ tallyKeys (table.foldl (fun m msg => incrVote m msg.Plan) m)
        ↔ x ∈ tallyKeys m ∨ ∃ p ∈ table, p.Plan = x := by
  induction table with
  | nil => intro m x; simp
  | cons p rest ih =>
    intro m x
    rw [List.foldl_cons, ih, mem_tallyKeys_incrVote]
    simp only [List.mem_cons, exists_eq_or_imp]
    constructor
    · rintro ((h | h) | h)
      · exact Or.inl h
      · exact Or.inr (Or.inl h.symm)
      · exact Or.inr (Or.inr h)
    · rintro (h | h | h)
      · exact Or.inl (Or.inl h)
      · exact Or.inl (Or.inr h.symm)
      · exact Or.inr h

theorem mem_tallyKeys_countVotes (table : List Plan) (x : String) :
    x ∈ tallyKeys (countVotes table) ↔ ∃ p ∈ table, p.Plan = x := by
  unfold countVotes
  rw [mem_tallyKeys_foldl]
  simp [tallyKeys]

theorem occurrences_pos_iff (table : List Plan) (x : String) :
    0 < occurrences table x ↔ ∃ p ∈ table, p.Plan = x := by
  simp [occurrences, List.countP_pos_iff]

theorem occurrences_cons (p : Plan) (rest : List Plan) (v : String) :
    occurrences (p :: rest) v = occurrences rest v + (if p.Plan = v then 1 else 0) := by
  by_cases h : p.Plan = v <;> simp [occurrences, List.countP_cons, h]

theorem occurrences_add_le (table : List Plan) (v w : String) (h : w ≠ v) :
    occurrences table v + occurrences table w ≤ table.length := by
  induction table with
  | nil => simp [occurrences]
  | cons p rest ih =>
    rw [occurrences_cons, occurrences_cons, List.length_cons]
    by_cases h1 : p.Plan = v
    · have h2 : ¬ p.Plan = w := fun e => h (e.symm.trans h1)
      rw [if_pos h1, if_neg h2]
      omega
    · by_cases h2 : p.Plan = w
      · rw [if_neg h1, if_pos h2]
        omega
      · rw [if_neg h1, if_neg h2]
        omega

theorem occurrences_le_length (table : List Plan) (v : String) :
    occurrences table v ≤ table.length :=
  List.countP_le_length _

/-! ## The loop that looks for the most voted plan -/

theorem maxVotesLoop_step_cases (m : List (String × Int)) (order : List String) :
    ∀ acc : Int × String,
      order.foldl
          (fun acc plan => if votesOf m plan > acc.1 then (votesOf m plan, plan) else acc) acc
        = acc ∨
      ∃ w ∈ order,
        order.foldl
          (fun acc plan => if votesOf m plan > acc.1 then (votesOf m plan, plan) else acc) acc
        = (votesOf m w, w) := by
  induction order with
  | nil => intro acc; exact Or.inl rfl
  | cons a rest ih =>
    intro acc
    rw [List.foldl_cons]
    by_cases h : votesOf m a > acc.1
    · simp only [h, if_true]
      rcases ih (votesOf m a, a) with h1 | ⟨w, hw, h1⟩
      · exact Or.inr ⟨a, List.mem_cons_self _ _, h1⟩
      · exact Or.inr ⟨w, List.mem_cons_of_mem _ hw, h1⟩
    · simp only [h, if_false]
      rcases ih acc with h1 | ⟨w, hw, h1⟩
      · exact Or.inl h1
      · exact Or.inr ⟨w, List.mem_cons_of_mem _ hw, h1⟩

theorem maxVotesLoop_stays (m : List (String × Int)) (order : List String) :
    ∀ acc : Int × String, (∀ w ∈ order, votesOf m w ≤ acc.1) →
      order.foldl
          (fun acc plan => if votesOf m plan > acc.1 then (votesOf m plan, plan) else acc) acc
        = acc := by
  induction order with
  | nil => intro acc _; rfl
  | cons a rest ih =>
    intro acc h
    rw [List.foldl_cons]
    have ha : ¬ votesOf m a > acc.1 := not_lt.mpr (h a (List.mem_cons_self _ _))
    simp only [ha, if_false]
    exact ih acc (fun w hw => h w (List.mem_cons_of_mem _ hw))

theorem maxVotesLoop_unique (m : List (String × Int)) (v : String) (order : List String) :
    ∀ acc : Int × String, v ∈ order → acc.1 < votesOf m v →
      (∀ w ∈ order, w ≠ v → votesOf m w < votesOf m v) →
      order.foldl
          (fun acc plan => if votesOf m plan > acc.1 then (votesOf m plan, plan) else acc) acc
        = (votesOf m v, v) := by
  induction order with
  | nil => intro acc hv; simp at hv
  | cons a rest ih =>
    intro acc hv hacc hlt
    rw [List.foldl_cons]
    by_cases hav : a = v
    · subst hav
      have : votesOf m a > acc.1 := hacc
      simp only [this, if_true]
      apply maxVotesLoop_stays
      intro w hw
      by_cases hwa : w = a
      · subst hwa; exact le_refl _
      · exact le_of_lt (hlt w (List.mem_cons_of_mem _ hw) hwa)
    · have hvr : v ∈ rest := by
        rcases List.mem_cons.1 hv with h | h
        · exact absurd h.symm hav
        · exact h
      have hrest : ∀ w ∈ rest, w ≠ v → votesOf m w < votesOf m v :=
        fun w hw => hlt w (List.mem_cons_of_mem _ hw)
      by_cases h : votesOf m a > acc.1
      · simp only [h, if_true]
        exact ih _ hvr (hlt a (List.mem_cons_self _ _) hav) hrest
      · simp only [h, if_false]
        exact ih _ hvr hacc hrest

theorem roundQuarter_nonneg (n : Nat) : 0 ≤ roundQuarter ((n : Int) - 1) := by
  unfold roundQuarter
  split <;> omega

theorem majorityThreshold_eq (node : Node) :
    majorityThreshold node = (node.nodeAddressesPorts.length : Int) / 2
      + roundQuarter ((node.nodeAddressesPorts.length : Int) - 1) := by
  unfold majorityThreshold
  rw [Int.tdiv_eq_ediv (Int.natCast_nonneg _) (by decide)]

theorem no_majority_of_bounded (node : Node) (round : Int) (order : List String)
    (hno : ∀ w, (occurrences (node.plans round) w : Int) ≤ majorityThreshold node) :
    calculateMajorityPlan node round order = (node, false, "") := by
  have hthr : 0 ≤ majorityThreshold node := by
    rw [majorityThreshold_eq]
    have := roundQuarter_nonneg node.nodeAddressesPorts.length
    omega
  have hbest : (maxVotesLoop (countVotes (node.plans round)) order).1 ≤ majorityThreshold node := by
    unfold maxVotesLoop
    rcases maxVotesLoop_step_cases (countVotes (node.plans round)) order (0, "") with h | ⟨w, _, h⟩
    · rw [h]; exact hthr
    · rw [h, votesOf_countVotes]; exact hno w
  unfold calculateMajorityPlan
  simp only [gt_iff_lt, not_lt.mpr hbest, if_false]

/-! ## The king fallback loop -/

theorem kingEntry_append_hit (node : Node) (t : List Plan) (p : Plan)
    (h : p.From = node.KingId) : kingEntry node (t ++ [p]) = some p := by
  simp [kingEntry, List.filter_append, List.filter_cons, h]

theorem kingEntry_append_miss (node : Node) (t : List Plan) (p : Plan)
    (h : ¬ p.From = node.KingId) : kingEntry node (t ++ [p]) = kingEntry node t := by
  simp [kingEntry, List.filter_append, List.filter_cons, h]

theorem kingEntry_mem (node : Node) (table : List Plan) :
    ∀ q, kingEntry node table = some q → q ∈ table ∧ q.From = node.KingId := by
  induction table using List.reverseRecOn with
  | nil => intro q h; simp [kingEntry] at h
  | append_singleton t p ih =>
    intro q h
    by_cases hp : p.From = node.KingId
    · rw [kingEntry_append_hit node t p hp] at h
      cases h
      exact ⟨by simp, hp⟩
    · rw [kingEntry_append_miss node t p hp] at h
      obtain ⟨h1, h2⟩ := ih q h
      exact ⟨List.mem_append_left _ h1, h2⟩

theorem kingEntry_none_iff (node : Node) (table : List Plan) :
    kingEntry node table = none ↔ ∀ p ∈ table, p.From ≠ node.KingId := by
  simp [kingEntry, List.filter_eq_nil_iff]

theorem adoptKingPlan_append (node : Node) (t : List Plan) (p : Plan) :
    adoptKingPlan node (t ++ [p]) =
      if p.From = (adoptKingPlan node t).KingId then
        { adoptKingPlan node t with
          plan := { (adoptKingPlan node t).plan with Plan := p.Plan } }
      else adoptKingPlan node t := by
  simp [adoptKingPlan, List.foldl_append]

theorem adoptKingPlan_eq (node : Node) (table : List Plan) :
    adoptKingPlan node table =
      match kingEntry node table with
      | some p => { node with plan := { node.plan with Plan := p.Plan } }
      | none => node := by
  induction table using List.reverseRecOn with
  | nil => simp [adoptKingPlan, kingEntry]
  | append_singleton t p ih =>
    have hk : (adoptKingPlan node t).KingId = node.KingId := by
      rw [ih]; cases kingEntry node t <;> rfl
    rw [adoptKingPlan_append, hk]
    by_cases hp : p.From = node.KingId
    · rw [if_pos hp, kingEntry_append_hit node t p hp, ih]
      cases kingEntry node t <;> rfl
    · rw [if_neg hp, kingEntry_append_miss node t p hp, ih]

theorem decideStep_no_majority (node : Node) (round : Int) (order : List String)
    (h : calculateMajorityPlan node round order = (node, false, "")) :
    decideStep node round order = adoptKingPlan node (node.plans round) := by
  unfold decideStep
  simp [h]

theorem broadcastPlan_honest (node : Node) (round : Int) (draws : Nat → Fin 2)
    (h : node.isTraitor = false) :
    ∀ tm ∈ broadcastPlan node round draws, tm.2.Plan = node.plan.Plan := by
  intro tm htm
  unfold broadcastPlan at htm
  rw [List.mem_filterMap] at htm
  obtain ⟨kt, _, hkt⟩ := htm
  by_cases hid : kt.2.Id = node.Id
  · simp [hid] at hkt
  · simp only [ne_eq, hid, not_false_eq_true, if_true, Option.some.injEq, h] at hkt
    rw [← hkt]
    simp

/-! ## The decision rule -/

/-- C2 (majority adoption): when the table of the round holds one entry less than
the topology has participants and some value `v` occurs in it strictly more than
`floor(N/2) + round((N-1)/4)` times, `calculateMajorityPlan` returns `(true, v)`
and the decide step leaves the node with plan `v` (and otherwise as it was),
whatever the node's plan was before and in whatever order the tally map is
ranged over; the tally of a value is the number of received entries that
carry it, the node's own plan is not part of it. -/
theorem majority_adoption (node : Node) (round : Int) (order : List String) (v : String)
    (hT : (node.plans round).length + 1 = node.nodeAddressesPorts.length)
    (hv : (occurrences (node.plans round) v : Int) >
        (node.nodeAddressesPorts.length : Int) / 2
          + roundQuarter ((node.nodeAddressesPorts.length : Int) - 1))
    (horder : order.Perm (tallyKeys (countVotes (node.plans round)))) :
    calculateMajorityPlan node round order
      = ({ node with plan := { node.plan with Plan := v } }, true, v) ∧
    decideStep node round order = { node with plan := { node.plan with Plan := v } } ∧
    (decideStep node round order).plan.Plan = v ∧
    (∀ w, votesOf (countVotes (node.plans round)) w = (occurrences (node.plans round) w : Int)) := by
  have hf := roundQuarter_nonneg node.nodeAddressesPorts.length
  have hpos : 0 < occurrences (node.plans round) v := by omega
  have hmem : v ∈ order :=
    horder.mem_iff.2 ((mem_tallyKeys_countVotes _ _).2 ((occurrences_pos_iff _ _).1 hpos))
  have hbest : maxVotesLoop (countVotes (node.plans round)) order
      = (votesOf (countVotes (node.plans round)) v, v) := by
    unfold maxVotesLoop
    apply maxVotesLoop_unique _ _ _ _ hmem
    · rw [votesOf_countVotes]; simp only; omega
    · intro w _ hw
      rw [votesOf_countVotes, votesOf_countVotes]
      have := occurrences_add_le (node.plans round) v w hw
      omega
  have hcalc : calculateMajorityPlan node round order
      = ({ node with plan := { node.plan with Plan := v } }, true, v) := by
    unfold calculateMajorityPlan
    simp only [hbest, votesOf_countVotes, majorityThreshold_eq]
    rw [if_pos hv]
  have hdec : decideStep node round order = { node with plan := { node.plan with Plan := v } } := by
    unfold decideStep
    simp [hcalc]
  refine ⟨hcalc, hdec, ?_, fun w => votesOf_countVotes _ w⟩
  rw [hdec]

theorem majority_adoption_witness :
    (occurrences (sampleMajorityNode.plans 1) "Attack" : Int) > (5 : Int) / 2 + roundQuarter (5 - 1) ∧
    calculateMajorityPlan sampleMajorityNode 1 ["Attack"]
      = ({ sampleMajorityNode with plan := { sampleMajorityNode.plan with Plan := "Attack" } },
          true, "Attack") :=
  ⟨by decide,
    (majority_adoption sampleMajorityNode 1 ["Attack"] "Attack" (by decide) (by decide)
      (by decide)).1⟩

/-- C3 (king fallback): when no value occurs in the table of the round strictly
more than `floor(N/2) + round((N-1)/4)` times, the decide step sets the node's plan
to the value of the (last) table entry sent by the node's king when the table has
one, overriding the prior plan, and leaves the node unchanged when the table has
no entry from the king.  Consequently, in such a round every peer whose entries
from the king all carry `b` ends with plan `b`, and an honest king, which sends
its own plan to every peer and has no entry from itself, keeps that plan. -/
theorem king_fallback (node : Node) (round : Int) (order : List String)
    (hno : ∀ w, (occurrences (node.plans round) w : Int) ≤
        (node.nodeAddressesPorts.length : Int) / 2
          + roundQuarter ((node.nodeAddressesPorts.length : Int) - 1)) :
    (∀ p, kingEntry node (node.plans round) = some p →
        p ∈ node.plans round ∧ p.From = node.KingId ∧
        decideStep node round order = { node with plan := { node.plan with Plan := p.Plan } }) ∧
    ((∃ p ∈ node.plans round, p.From = node.KingId) →
        ∃ q, kingEntry node (node.plans round) = some q) ∧
    ((∀ p ∈ node.plans round, p.From ≠ node.KingId) → decideStep node round order = node) ∧
    (∀ b, (∃ p ∈ node.plans round, p.From = node.KingId) →
        (∀ p ∈ node.plans round, p.From = node.KingId → p.Plan = b) →
        (decideStep node round order).plan.Plan = b) ∧
    (∀ draws, node.isTraitor = false → node.KingId = node.Id →
        (∀ p ∈ node.plans round, p.From ≠ node.Id) →
        (∀ tm ∈ broadcastPlan node round draws, tm.2.Plan = node.plan.Plan) ∧
        (decideStep node round order).plan.Plan = node.plan.Plan) := by
  have hcalc : calculateMajorityPlan node round order = (node, false, "") :=
    no_majority_of_bounded node round order (fun w => by rw [majorityThreshold_eq]; exact hno w)
  have hdec := decideStep_no_majority node round order hcalc
  rw [adoptKingPlan_eq] at hdec
  have hsome : ∀ p, kingEntry node (node.plans round) = some p →
      decideStep node round order = { node with plan := { node.plan with Plan := p.Plan } } := by
    intro p hp
    rw [hdec, hp]
  have hnone : (∀ p ∈ node.plans round, p.From ≠ node.KingId) →
      decideStep node round order = node := by
    intro h
    rw [hdec, (kingEntry_none_iff node _).2 h]
  have hex : (∃ p ∈ node.plans round, p.From = node.KingId) →
      ∃ q, kingEntry node (node.plans round) = some q := by
    rintro ⟨p, hp, hpk⟩
    cases hq : kingEntry node (node.plans round) with
    | some q => exact ⟨q, rfl⟩
    | none => exact absurd hpk ((kingEntry_none_iff node _).1 hq p hp)
  refine ⟨fun p hp => ⟨(kingEntry_mem node _ p hp).1, (kingEntry_mem node _ p hp).2, hsome p hp⟩,
    hex, hnone, ?_, ?_⟩
  · intro b hexi hall
    obtain ⟨q, hq⟩ := hex hexi
    rw [hsome q hq]
    exact hall q (kingEntry_mem node _ q hq).1 (kingEntry_mem node _ q hq).2
  · intro draws ht hk hself
    refine ⟨broadcastPlan_honest node round draws ht, ?_⟩
    rw [hnone (fun p hp => by rw [hk]; exact hself p hp)]

theorem king_fallback_witness :
    sampleTiedNode.plan.Plan = "Attack" ∧
    (decideStep sampleTiedNode 1 ["Retreat", "Attack"]).plan.Plan = "Retreat" :=
  ⟨rfl,
    (king_fallback sampleTiedNode 1 ["Retreat", "Attack"] (fun w => by
      have h : occurrences (sampleTiedNode.plans 1) w ≤ 2 := occurrences_le_length _ _
      have e : ((sampleTiedNode.nodeAddressesPorts.length : Int) / 2
          + roundQuarter ((sampleTiedNode.nodeAddressesPorts.length : Int) - 1)) = 2 := by decide
      rw [e]; exact_mod_cast h)).2.2.2.1 "Retreat"
      ⟨{ From := 1, Plan := "Retreat" }, by decide, by decide⟩ (by decide)⟩

/-- C10 (reach of the overwhelming-majority rule in small groups): in a topology
of 1 to 8 participants, with a round table of exactly `N-1` entries,
`calculateMajorityPlan` returns `true` only if `N ≥ 5` and all entries carry the
same value; for `N ≤ 4` it returns `(false, "")`, leaves the node unchanged, and
the decide step is the king fallback loop. -/
theorem majority_reach_small_groups (node : Node) (round : Int) (order : List String)
    (h1 : 1 ≤ node.nodeAddressesPorts.length) (h8 : node.nodeAddressesPorts.length ≤ 8)
    (hT : (node.plans round).length = node.nodeAddressesPorts.length - 1) :
    ((calculateMajorityPlan node round order).2.1 = true →
        5 ≤ node.nodeAddressesPorts.length ∧ ∃ v, ∀ p ∈ node.plans round, p.Plan = v) ∧
    (node.nodeAddressesPorts.length ≤ 4 →
        calculateMajorityPlan node round order = (node, false, "") ∧
        decideStep node round order = adoptKingPlan node (node.plans round)) := by
  have hthr := majorityThreshold_eq node
  unfold roundQuarter at hthr
  have hkey : ∀ w, (occurrences (node.plans round) w : Int) > majorityThreshold node →
      5 ≤ node.nodeAddressesPorts.length ∧
      occurrences (node.plans round) w = (node.plans round).length := by
    intro w hw
    have hle := occurrences_le_length (node.plans round) w
    split at hthr <;> omega
  constructor
  · intro htrue
    unfold calculateMajorityPlan at htrue
    by_cases hb : (maxVotesLoop (countVotes (node.plans round)) order).1 > majorityThreshold node
    · unfold maxVotesLoop at hb
      rcases maxVotesLoop_step_cases (countVotes (node.plans round)) order (0, "")
        with h | ⟨w, _, h⟩
      · rw [h] at hb
        simp only at hb
        split at hthr <;> omega
      · rw [h, votesOf_countVotes] at hb
        obtain ⟨h5, hall⟩ := hkey w hb
        refine ⟨h5, w, fun p hp => ?_⟩
        have := (List.countP_eq_length.1 hall) p hp
        simpa using this
    · simp [hb] at htrue
  · intro h4
    have hcalc : calculateMajorityPlan node round order = (node, false, "") := by
      apply no_majority_of_bounded
      intro w
      by_contra hcon
      have := (hkey w (not_le.mp hcon)).1
      omega
    exact ⟨hcalc, decideStep_no_majority node round order hcalc⟩

theorem majority_reach_small_groups_witness :
    calculateMajorityPlan sampleTiedNode 1 ["Attack", "Retreat"] = (sampleTiedNode, false, "") :=
  ((majority_reach_small_groups sampleTiedNode 1 ["Attack", "Retreat"] (by decide) (by decide)
    (by decide)).2 (by decide)).1

/-! ## The topology built by `generateNodes` -/

theorem mem_intRange (lo hi x : Int) : x ∈ intRange lo hi ↔ lo ≤ x ∧ x < hi := by
  unfold intRange
  simp only [List.mem_map, List.mem_range]
  constructor
  · rintro ⟨k, hk, rfl⟩
    omega
  · rintro ⟨h1, h2⟩
    exact ⟨(x - lo).toNat, by omega, by omega⟩

theorem intRange_length (lo hi : Int) : (intRange lo hi).length = (hi - lo).toNat := by
  simp [intRange]

theorem intRange_split (lo mid hi : Int) (h1 : lo ≤ mid) (h2 : mid ≤ hi) :
    intRange lo hi = intRange lo mid ++ intRange mid hi := by
  unfold intRange
  have e : (hi - lo).toNat = (mid - lo).toNat + (hi - mid).toNat := by omega
  rw [e, List.range_add, List.map_append, List.map_map]
  congr 1
  apply List.map_congr_left
  intro k _
  simp only [Function.comp, Nat.cast_add]
  omega

theorem intRange_zero (n : Int) :
    intRange 0 n = (List.range n.toNat).map (fun (k : Nat) => (k : Int)) := by
  unfold intRange
  simp

theorem roundQuarter_bounds (N : Int) (hN : 1 ≤ N) :
    0 ≤ roundQuarter (N - 1) ∧ -2 < 4 * roundQuarter (N - 1) - (N - 1) ∧
      4 * roundQuarter (N - 1) - (N - 1) ≤ 2 ∧ roundQuarter (N - 1) ≤ N := by
  unfold roundQuarter
  split <;> omega

/-- C6 (traitor set and round bound): for `N ≥ 1` and a non-empty address list,
`generateNodes` returns `N` nodes with ids `0..N-1` in order; node `i` is marked
traitor exactly when `i ≥ N - f`, where `f` is `(N-1)/4` rounded to the nearest
integer with halves away from zero, so the traitors are the `f` highest ids;
every node carries the traitor list `[N-f, ..., N-1]`; the round count is `f+1`. -/
theorem generateNodes_traitors_and_rounds (N : Int) (addresses : List String)
    (draws : Int → Fin 2) (hN : 1 ≤ N) (ha : addresses ≠ []) :
    ∃ nodes : List Node,
      generateNodes N addresses draws = some (nodes, roundQuarter (N - 1) + 1) ∧
      (nodes.length : Int) = N ∧
      nodes.map (fun nd => nd.Id) = (List.range N.toNat).map (fun (k : Nat) => (k : Int)) ∧
      (∀ nd ∈ nodes, (nd.isTraitor = true ↔ N - roundQuarter (N - 1) ≤ nd.Id)) ∧
      (∀ nd ∈ nodes, nd.traitors =
        (List.range (roundQuarter (N - 1)).toNat).map
          (fun (k : Nat) => N - roundQuarter (N - 1) + (k : Int))) ∧
      (nodes.filter (fun nd => nd.isTraitor)).map (fun nd => nd.Id) =
        (List.range (roundQuarter (N - 1)).toNat).map
          (fun (k : Nat) => N - roundQuarter (N - 1) + (k : Int)) ∧
      (0 ≤ roundQuarter (N - 1) ∧ -2 < 4 * roundQuarter (N - 1) - (N - 1) ∧
        4 * roundQuarter (N - 1) - (N - 1) ≤ 2) := by
  obtain ⟨hf0, hf1, hf2, hfN⟩ := roundQuarter_bounds N hN
  have hT : intRange (N - roundQuarter (N - 1)) N =
      (List.range (roundQuarter (N - 1)).toNat).map
        (fun (k : Nat) => N - roundQuarter (N - 1) + (k : Int)) := by
    unfold intRange
    have e : (N - (N - roundQuarter (N - 1))).toNat = (roundQuarter (N - 1)).toNat := by
      congr 1; omega
    rw [e]
  have hguard : ¬ (0 < N ∧ addresses = []) := fun h => ha h.2
  cases hgen : generateNodes N addresses draws with
  | none => simp [generateNodes, hguard] at hgen
  | some g =>
    obtain ⟨nodes, R⟩ := g
    simp only [generateNodes, hguard, if_false, Option.some.injEq, Prod.mk.injEq] at hgen
    obtain ⟨hnodes, hR⟩ := hgen
    subst hnodes
    subst hR
    refine ⟨_, rfl, ?_, ?_, ?_, ?_, ?_, hf0, hf1, hf2⟩
    · rw [List.length_map, intRange_length]
      omega
    · rw [← intRange_zero, List.map_map]
      exact List.map_id _
    · intro nd hnd
      rw [List.mem_map] at hnd
      obtain ⟨i, hi, rfl⟩ := hnd
      rw [mem_intRange] at hi
      simp only [contains_iff, mem_intRange]
      omega
    · intro nd hnd
      rw [List.mem_map] at hnd
      obtain ⟨i, _, rfl⟩ := hnd
      exact hT
    · rw [List.filter_map, List.map_map,
        intRange_split 0 (N - roundQuarter (N - 1)) N (by omega) (by omega), List.filter_append]
      rw [show List.filter _ (intRange 0 (N - roundQuarter (N - 1))) = [] from
        List.filter_eq_nil_iff.2 (fun i hi => by
          rw [mem_intRange] at hi
          simp only [Function.comp, Bool.not_eq_true]
          cases hc : contains (intRange (N - roundQuarter (N - 1)) N) i with
          | false => rfl
          | true =>
            rw [contains_iff, mem_intRange] at hc
            omega)]
      rw [show List.filter _ (intRange (N - roundQuarter (N - 1)) N)
          = intRange (N - roundQuarter (N - 1)) N from
        List.filter_eq_self.2 (fun i hi => by
          simp only [Function.comp]
          exact (contains_iff _ _).2 hi)]
      rw [List.nil_append, ← hT]
      exact List.map_id _

theorem generateNodes_traitors_and_rounds_witness :
    ∃ nodes : List Node,
      generateNodes 7 ["10.0.0.1", "10.0.0.2"] (fun _ => 0)
        = some (nodes, roundQuarter (7 - 1) + 1) ∧
      (nodes.length : Int) = 7 ∧
      ∀ nd ∈ nodes, (nd.isTraitor = true ↔ 7 - roundQuarter (7 - 1) ≤ nd.Id) :=
  let ⟨nodes, h1, h2, _, h4, _⟩ :=
    generateNodes_traitors_and_rounds 7 ["10.0.0.1", "10.0.0.2"] (fun _ => 0) (by decide)
      (by decide)
  ⟨nodes, h1, h2, h4⟩

/-- C7 (topology ports), evaluated on ten participants: participants 0 to 8 get the
ports 8001 to 8009, participant 9 gets the port `80010`, which is not
`8000 + 9 + 1`; so no base `B` gives `B + i + 1` for every participant. -/
theorem generateNodes_ports_have_no_common_base :
    portNumbers 10 = some
      [(0, "8001", some 8001), (1, "8002", some 8002), (2, "8003", some 8003),
       (3, "8004", some 8004), (4, "8005", some 8005), (5, "8006", some 8006),
       (6, "8007", some 8007), (7, "8008", some 8008), (8, "8009", some 8009),
       (9, "80010", some 80010)] ∧
    ¬ ∃ B : Int, ∀ ports, portNumbers 10 = some ports →
        ∀ e ∈ ports, e.2.2 = some (B + e.1 + 1) := by
  have h : portNumbers 10 = some
      [(0, "8001", some 8001), (1, "8002", some 8002), (2, "8003", some 8003),
       (3, "8004", some 8004), (4, "8005", some 8005), (5, "8006", some 8006),
       (6, "8007", some 8007), (7, "8008", some 8008), (8, "8009", some 8009),
       (9, "80010", some 80010)] := by decide
  refine ⟨h, ?_⟩
  rintro ⟨B, hB⟩
  have h0 := hB _ h (0, "8001", some 8001) (by simp)
  have h9 := hB _ h (9, "80010", some 80010) (by simp)
  simp only [Option.some.injEq] at h0 h9
  omega

/-! ## King selection -/

theorem chooseKing_direct (fuel : Nat) (node : Node) (N r : Int) (hN : N ≠ 0)
    (h : contains node.traitors node.KingId = false ∨
      contains node.traitors (Int.tmod r N) = false) :
    chooseKing (fuel + 1) node N r = some (Int.tmod r N, node) := by
  unfold chooseKing
  rcases h with h | h <;> simp [hN, h]

theorem handleConnection_plan_fields (node : Node) (m : Message) (r : Int)
    (h : m.MsgType = PlanMessage) (hr : m.Round = r) :
    (handleConnection node (some m)).plans r = node.plans r ++ [{ From := m.From, Plan := m.Plan }] ∧
    (∀ r2, r2 ≠ r → (handleConnection node (some m)).plans r2 = node.plans r2) ∧
    (handleConnection node (some m)).KingId = node.KingId ∧
    (handleConnection node (some m)).traitors = node.traitors := by
  have hne : ¬ PlanMessage = ACKMessage := by decide
  subst hr
  refine ⟨by simp [handleConnection, h, hne], ?_, by simp [handleConnection, h, hne],
    by simp [handleConnection, h, hne]⟩
  intro r2 hr2
  simp [handleConnection, h, hne, hr2]

theorem handleAll_plan_fields (msgs : List Message) (r : Int) :
    ∀ node : Node, (∀ m ∈ msgs, m.MsgType = PlanMessage ∧ m.Round = r) →
      (handleAll node msgs).plans r
        = node.plans r ++ msgs.map (fun m => ({ From := m.From, Plan := m.Plan } : Plan)) ∧
      (∀ r2, r2 ≠ r → (handleAll node msgs).plans r2 = node.plans r2) ∧
      (handleAll node msgs).KingId = node.KingId ∧
      (handleAll node msgs).traitors = node.traitors := by
  induction msgs with
  | nil => intro node _; simp [handleAll]
  | cons m rest ih =>
    intro node h
    rw [handleAll_cons]
    obtain ⟨hm1, hm2⟩ := h m (List.mem_cons_self _ _)
    obtain ⟨a1, a2, a3, a4⟩ := handleConnection_plan_fields node m r hm1 hm2
    obtain ⟨b1, b2, b3, b4⟩ := ih (handleConnection node (some m))
      (fun x hx => h x (List.mem_cons_of_mem _ hx))
    refine ⟨?_, ?_, b3.trans a3, b4.trans a4⟩
    · rw [b1, a1]; simp
    · intro r2 hr2
      rw [b2 r2 hr2, a2 r2 hr2]

theorem decideStep_frame (node : Node) (round : Int) (order : List String) :
    ∃ x, decideStep node round order = { node with plan := { node.plan with Plan := x } } := by
  by_cases hb : (maxVotesLoop (countVotes (node.plans round)) order).1 > majorityThreshold node
  · refine ⟨(maxVotesLoop (countVotes (node.plans round)) order).2, ?_⟩
    unfold decideStep calculateMajorityPlan
    simp [hb]
  · have hcalc : calculateMajorityPlan node round order = (node, false, "") := by
      unfold calculateMajorityPlan
      simp only [hb, if_false]
    rw [decideStep_no_majority node round order hcalc, adoptKingPlan_eq]
    cases kingEntry node (node.plans round) with
    | some p => exact ⟨p.Plan, rfl⟩
    | none => exact ⟨node.plan.Plan, rfl⟩

theorem runRound_step (fuel : Nat) (N : Int) (lies : Int → Nat → Fin 2)
    (inbox : Int → List Message) (order : Int → List String) (nd : Node) (kings : List Int)
    (r : Int) (hfuel : 1 ≤ fuel) (hr0 : 0 ≤ r) (hrN : r < N)
    (hprev : contains nd.traitors nd.KingId = false)
    (hempty : nd.plans r = [])
    (hlen : ((inbox r).length : Int) = N - 1)
    (hmsgs : ∀ m ∈ inbox r, m.MsgType = PlanMessage ∧ m.Round = r) :
    ∃ nd2, runRound fuel N lies inbox order (some (nd, kings)) r = some (nd2, kings ++ [r]) ∧
      nd2.KingId = r ∧ nd2.traitors = nd.traitors ∧ ∀ r2, r2 ≠ r → nd2.plans r2 = nd.plans r2 := by
  obtain ⟨f, rfl⟩ : ∃ f, fuel = f + 1 := ⟨fuel - 1, by omega⟩
  have hN0 : N ≠ 0 := by omega
  have htm : Int.tmod r N = r := by
    rw [Int.tmod_eq_emod hr0 (by omega), Int.emod_eq_of_lt hr0 hrN]
  have hck : chooseKing (f + 1) { nd with round := r } N r = some (r, { nd with round := r }) := by
    have := chooseKing_direct f { nd with round := r } N r hN0 (Or.inl hprev)
    rw [htm] at this
    exact this
  have hsend : roundSend (f + 1) nd N r (lies r)
      = some ({ nd with round := r, KingId := r },
          broadcastPlan { nd with round := r, KingId := r } r (lies r)) := by
    unfold roundSend
    rw [hck]
  obtain ⟨p1, p2, p3, p4⟩ :=
    handleAll_plan_fields (inbox r) r { nd with round := r, KingId := r } hmsgs
  have hrecv : allPlansReceived (handleAll { nd with round := r, KingId := r } (inbox r)) r N
      = true := by
    unfold allPlansReceived
    apply decide_eq_true
    rw [p1]
    simp only [hempty, List.nil_append, List.length_map]
    exact hlen
  obtain ⟨x, hx⟩ :=
    decideStep_frame (handleAll { nd with round := r, KingId := r } (inbox r)) r (order r)
  refine ⟨decideStep (handleAll { nd with round := r, KingId := r } (inbox r)) r (order r),
    ?_, ?_, ?_, ?_⟩
  · unfold runRound
    simp only [hsend, roundDecide, hrecv, if_true]
  · rw [hx]; exact p3
  · rw [hx]; exact p4
  · intro r2 hr2
    rw [hx]
    exact p2 r2 hr2

theorem runNode_loop (fuel : Nat) (N R : Int) (lies : Int → Nat → Fin 2)
    (inbox : Int → List Message) (order : Int → List String) (node : Node)
    (hfuel : 1 ≤ fuel) (hRN : R < N) (hking : node.KingId = 0)
    (hprev : ∀ r : Int, 0 ≤ r → r < R → contains node.traitors r = false)
    (hplans : ∀ r : Int, 1 ≤ r → node.plans r = [])
    (hinbox : losslessInbox inbox R N) :
    ∀ n : Nat, (n : Int) ≤ R →
      ∃ nd, ((List.range n).map (fun (k : Nat) => 1 + (k : Int))).foldl
          (runRound fuel N lies inbox order) (some (node, []))
          = some (nd, (List.range n).map (fun (k : Nat) => (k : Int) + 1)) ∧
        nd.KingId = (n : Int) ∧ nd.traitors = node.traitors ∧
        ∀ r : Int, (n : Int) < r → nd.plans r = [] := by
  intro n
  induction n with
  | zero =>
    intro _
    exact ⟨node, rfl, by simpa using hking, rfl, fun r hr => hplans r (by omega)⟩
  | succ n ih =>
    intro hn
    have hn2 : (n : Int) + 1 ≤ R := by push_cast at hn; exact hn
    obtain ⟨nd, h1, h2, h3, h4⟩ := ih (by omega)
    obtain ⟨q1, q2⟩ := hinbox (1 + (n : Int)) (by omega) (by omega)
    obtain ⟨nd2, s1, s2, s3, s4⟩ := runRound_step fuel N lies inbox order nd
      ((List.range n).map (fun (k : Nat) => (k : Int) + 1)) (1 + (n : Int)) hfuel (by omega)
      (by omega) (by rw [h2, h3]; exact hprev n (by omega) (by omega))
      (h4 _ (by omega)) q1 q2
    refine ⟨nd2, ?_, ?_, ?_, ?_⟩
    · rw [List.range_succ, List.map_append, List.foldl_append, h1]
      simp only [List.map_cons, List.map_nil, List.foldl_cons, List.foldl_nil]
      rw [s1, List.map_append]
      simp only [List.map_cons, List.map_nil]
      rw [add_comm (1 : Int) (n : Int)]
    · rw [s2]; push_cast; ring
    · rw [s3, h3]
    · intro r hr
      rw [s4 r (by push_cast at hr; omega)]
      exact h4 r (by push_cast at hr; omega)

theorem runNode_kings (fuel : Nat) (N R : Int) (lies : Int → Nat → Fin 2)
    (inbox : Int → List Message) (order : Int → List String) (node : Node)
    (hfuel : 1 ≤ fuel) (hR0 : 0 ≤ R) (hRN : R < N) (hking : node.KingId = 0)
    (hprev : ∀ r : Int, 0 ≤ r → r < R → contains node.traitors r = false)
    (hplans : ∀ r : Int, 1 ≤ r → node.plans r = [])
    (hinbox : losslessInbox inbox R N) :
    ∃ final, runNode fuel node R N lies inbox order
      = some (final, (List.range R.toNat).map (fun (k : Nat) => (k : Int) + 1)) := by
  obtain ⟨nd, h1, _⟩ := runNode_loop fuel N R lies inbox order node hfuel hRN hking hprev hplans
    hinbox R.toNat (by omega)
  refine ⟨{ nd with isRunning := false }, ?_⟩
  unfold runNode intRange
  have e : (R + 1 - 1).toNat = R.toNat := by congr 1; omega
  rw [e, h1]

theorem generateNodes_fields (N : Int) (addresses : List String) (draws : Int → Fin 2)
    (ha : addresses ≠ []) :
    ∃ nodes, generateNodes N addresses draws = some (nodes, roundQuarter (N - 1) + 1) ∧
      ∀ nd ∈ nodes, nd.KingId = 0 ∧ (∀ r, nd.plans r = []) ∧
        nd.traitors = intRange (N - roundQuarter (N - 1)) N := by
  have hguard : ¬ (0 < N ∧ addresses = []) := fun h => ha h.2
  cases hgen : generateNodes N addresses draws with
  | none => simp [generateNodes, hguard] at hgen
  | some g =>
    obtain ⟨nodes, R⟩ := g
    simp only [generateNodes, hguard, if_false, Option.some.injEq, Prod.mk.injEq] at hgen
    obtain ⟨hnodes, hR⟩ := hgen
    subst hnodes
    subst hR
    refine ⟨_, rfl, ?_⟩
    intro nd hnd
    rw [List.mem_map] at hnd
    obtain ⟨i, _, rfl⟩ := hnd
    exact ⟨rfl, fun _ => rfl, rfl⟩

/-- C9 (kings of a generated run are honest): for `N ≥ 4`, with the nodes and the
round count `R` returned by `generateNodes` (initial `KingId` 0), every round
`r = 1..R` satisfies `r < N` and `r` is not in the traitor list, and in a lossless
run `runNode` chooses the kings `1, 2, ..., R` in this order; it does so already
when `chooseKing` may make a single call, so the reselection branch is never
taken.  For `N = 3` the kings are `1, 2` and the king 2 of round 2 is a traitor. -/
theorem generated_run_kings_honest (N : Int) (hN : 4 ≤ N) (addresses : List String)
    (ha : addresses ≠ []) (draws : Int → Fin 2) :
    (∃ nodes R, generateNodes N addresses draws = some (nodes, R) ∧
      (∀ r : Int, 1 ≤ r → r ≤ R → r < N ∧ ∀ node ∈ nodes, contains node.traitors r = false) ∧
      ∀ node ∈ nodes, ∀ (fuel : Nat) (lies : Int → Nat → Fin 2) (inbox : Int → List Message)
        (order : Int → List String), 1 ≤ fuel → losslessInbox inbox R N →
        ∃ final, runNode fuel node R N lies inbox order
          = some (final, (List.range R.toNat).map (fun (k : Nat) => (k : Int) + 1))) ∧
    (∃ nodes3, generateNodes 3 addresses draws = some (nodes3, 2) ∧
      ∀ node ∈ nodes3, contains node.traitors 2 = true ∧
        ∀ (fuel : Nat) (lies : Int → Nat → Fin 2) (inbox : Int → List Message)
          (order : Int → List String), 1 ≤ fuel → losslessInbox inbox 2 3 →
          ∃ final, runNode fuel node 2 3 lies inbox order = some (final, [1, 2])) := by
  constructor
  · obtain ⟨nodes, hgen, hfields⟩ := generateNodes_fields N addresses draws ha
    obtain ⟨hf0, hf1, hf2, _⟩ := roundQuarter_bounds N (by omega)
    have hhonest : ∀ r : Int, 0 ≤ r → r ≤ roundQuarter (N - 1) + 1 →
        ∀ node ∈ nodes, contains node.traitors r = false := by
      intro r hr0 hr node hnode
      cases hc : contains node.traitors r with
      | false => rfl
      | true =>
        rw [(hfields node hnode).2.2, contains_iff, mem_intRange] at hc
        omega
    refine ⟨nodes, roundQuarter (N - 1) + 1, hgen, ?_, ?_⟩
    · intro r hr1 hrR
      exact ⟨by omega, hhonest r (by omega) hrR⟩
    · intro node hnode fuel lies inbox order hfuel hinbox
      exact runNode_kings fuel N _ lies inbox order node hfuel (by omega) (by omega)
        (hfields node hnode).1 (fun r hr0 hr => hhonest r hr0 (by omega) node hnode)
        (fun r _ => (hfields node hnode).2.1 r) hinbox
  · obtain ⟨nodes, hgen, hfields⟩ := generateNodes_fields 3 addresses draws ha
    have hR : roundQuarter (3 - 1) + 1 = 2 := by decide
    have hT : intRange (3 - roundQuarter (3 - 1)) 3 = [2] := by decide
    rw [hR] at hgen
    refine ⟨nodes, hgen, ?_⟩
    intro node hnode
    have htr : node.traitors = [2] := by rw [(hfields node hnode).2.2, hT]
    refine ⟨by rw [htr]; decide, ?_⟩
    intro fuel lies inbox order hfuel hinbox
    exact runNode_kings fuel 3 2 lies inbox order node hfuel (by decide) (by decide)
      (hfields node hnode).1
      (fun r hr0 hr => by
        rw [htr]
        have : r = 0 ∨ r = 1 := by omega
        rcases this with rfl | rfl <;> decide)
      (fun r _ => (hfields node hnode).2.1 r) hinbox

theorem sampleInbox_lossless (R : Int) : losslessInbox sampleInbox R 4 := by
  intro r _ _
  refine ⟨by simp [sampleInbox], ?_⟩
  intro m hm
  simp only [sampleInbox, List.mem_cons, List.mem_singleton, List.not_mem_nil, or_false] at hm
  rcases hm with rfl | rfl | rfl <;> exact ⟨rfl, rfl⟩

theorem generated_run_kings_honest_witness :
    ∃ nodes R, generateNodes 4 ["127.0.0.1"] (fun _ => 0) = some (nodes, R) ∧
      (∀ r : Int, 1 ≤ r → r ≤ R → r < 4 ∧ ∀ node ∈ nodes, contains node.traitors r = false) ∧
      ∀ node ∈ nodes, ∃ final, runNode 1 node R 4 (fun _ _ => 0) sampleInbox (fun _ => [])
        = some (final, (List.range R.toNat).map (fun (k : Nat) => (k : Int) + 1)) :=
  let ⟨nodes, R, h1, h2, h3⟩ :=
    (generated_run_kings_honest 4 (by decide) ["127.0.0.1"] (by decide) (fun _ => 0)).1
  ⟨nodes, R, h1, h2, fun node hnode =>
    h3 node hnode 1 (fun _ _ => 0) sampleInbox (fun _ => []) (le_refl 1) (sampleInbox_lossless R)⟩

/-! ## Agreement -/

/-- C1 (agreement), evaluated on a run of nine participants: `generateNodes` gives
the traitors 7 and 8 and three rounds; participant 1 starts with `Retreat`, the
other honest participants with `Attack`; every table of every round holds one
entry from each of the eight other participants; after the three rounds of the
lockstep run participant 3 holds `Retreat` while the other six honest
participants hold `Attack`. -/
theorem agreement_fails_for_nine_participants :
    (generateNodes 9 ["127.0.0.1"] nineInitialDraws).map (fun g => (g.2, honestPlans g.1))
      = some (3, [(0, "Attack"), (1, "Retreat"), (2, "Attack"), (3, "Attack"), (4, "Attack"),
          (5, "Attack"), (6, "Attack")]) ∧
    (generateNodes 9 ["127.0.0.1"] nineInitialDraws).bind
        (fun g => (syncRun 1 g.1 g.2 9 nineTraitorDraws).map recordedSenders)
      = some ((intRange 0 9).map
          (fun i => (i, [1, 2, 3].map (fun _ => (intRange 0 9).filter (fun j => j ≠ i))))) ∧
    (generateNodes 9 ["127.0.0.1"] nineInitialDraws).bind
        (fun g => (syncRun 1 g.1 g.2 9 nineTraitorDraws).map honestPlans)
      = some [(0, "Attack"), (1, "Attack"), (2, "Attack"), (3, "Retreat"), (4, "Attack"),
          (5, "Attack"), (6, "Attack")] := by
  refine ⟨by decide, by decide, by decide⟩

end KingAlgorithm
